import Mathlib

/-!
Verification of the chunking / retrieval pipeline of rag-my-pdf (src/src/main.rs).

The embedding mirrors the Rust source:

* `split_whitespace` models `str::split_whitespace`: tokenize a string by
  whitespace characters, skipping empty tokens.
* `joinWords` models `[&str]::join(" ")`.
* `chunkLoop` models the `while start < words.len()` loop of `chunk_text`
  (main.rs lines 17-35).  The loop advances `start` by `chunk_size - overlap`
  each iteration; since that step can be zero the Rust loop need not
  terminate, so the model carries an explicit iteration bound `fuel`:
  `none` means the loop performed `fuel` iterations without finishing
  (for a non-positive step the loop genuinely runs forever, and the model
  returns `none` for every fuel).
* `chunk_text` runs the loop with fuel `words.length + 1`, which is enough
  whenever the step is positive because `start` strictly increases.
-/

/-- Models Rust `str::split_whitespace` on the character list of a string:
maximal runs of non-whitespace characters become the tokens, empty tokens
are skipped.  `acc` holds the characters of the current token, reversed. -/
def splitWSAux : List Char → List Char → List String
  | [], acc => if acc = [] then [] else [String.mk acc.reverse]
  | c :: cs, acc =>
    if c.isWhitespace then
      if acc = [] then splitWSAux cs []
      else String.mk acc.reverse :: splitWSAux cs []
    else
      splitWSAux cs (c :: acc)

/-- `text.split_whitespace().collect::<Vec<&str>>()` from `chunk_text`. -/
def split_whitespace (s : String) : List String := splitWSAux s.data []

/-- Models `words[start..end].join(" ")`: concatenation with a single space
between consecutive elements. -/
def joinWords : List String → String
  | [] => ""
  | [w] => w
  | w :: ws => w ++ " " ++ joinWords ws

/-- The `while start < words.len()` loop of `chunk_text` (main.rs 22-32),
with an explicit iteration bound `fuel`.  Each iteration takes the window
`words[start..min(start+size, len)]`, joins it with single spaces, pushes it,
breaks if the window reached the end, and otherwise advances `start` by
`size - overlap` (natural subtraction; in Rust `usize` arithmetic). -/
def chunkLoop (words : List String) (size overlap start fuel : Nat) :
    Option (List String) :=
  match fuel with
  | 0 => none
  | fuel' + 1 =>
    if start < words.length then
      let chunk := joinWords ((words.drop start).take size)
      if words.length ≤ start + size then
        some [chunk]
      else
        Option.map (chunk :: ·)
          (chunkLoop words size overlap (start + (size - overlap)) fuel')
    else
      some []

/-- `chunk_text` from main.rs lines 17-35: tokenize, then run the sliding
window loop.  Fuel `words.length + 1` bounds the iteration count, which
suffices exactly when the loop terminates (step `size - overlap ≥ 1`);
`none` records that the Rust loop does not finish. -/
def chunk_text (text : String) (chunk_size overlap : Nat) : Option (List String) :=
  let words := split_whitespace text
  chunkLoop words chunk_size overlap 0 (words.length + 1)

/-- Proof-side companion of `chunkLoop` that keeps the winows as word lists
instead of joining them into strings. -/
def windowLoop (words : List String) (size overlap start fuel : Nat) :
    Option (List (List String)) :=
  match fuel with
  | 0 => none
  | fuel' + 1 =>
    if start < words.length then
      let win := (words.drop start).take size
      if words.length ≤ start + size then
        some [win]
      else
        Option.map (win :: ·)
          (windowLoop words size overlap (start + (size - overlap)) fuel')
    else
      some []

/-- Reassembly of chunk word-sequences: keep the first chunk whole and drop
the first `overlap` words of every later chunk, then concatenate. -/
def reassemble (overlap : Nat) : List (List String) → List String
  | [] => []
  | w :: ws => w ++ (ws.map (List.drop overlap)).flatten

/-- A token as produced by whitespace splitting: nonempty, and free of
whitespace characters. -/
def wordOK (w : String) : Prop :=
  w.data ≠ [] ∧ ∀ c ∈ w.data, c.isWhitespace = false

/-- One stored embedding of the vector index: chunk index, vector, and the
chunk's text. -/
structure StoredDoc where
  chunkIndex : Nat
  vec : List ℚ
  text : String

/-- Insertion into a ranked list: higher score first, and for equal scores
the earlier chunk index first. -/
def insertRanked (x : StoredDoc × ℚ) : List (StoredDoc × ℚ) → List (StoredDoc × ℚ)
  | [] => [x]
  | y :: ys =>
    if y.2 < x.2 ∨ (x.2 = y.2 ∧ x.1.chunkIndex ≤ y.1.chunkIndex) then
      x :: y :: ys
    else
      y :: insertRanked x ys

/-- Sort by descending score with ties broken by ascending chunk index. -/
def sortRanked : List (StoredDoc × ℚ) → List (StoredDoc × ℚ)
  | [] => []
  | x :: xs => insertRanked x (sortRanked xs)

/-- Modelled from the spec: `VectorIndex.query` (spec section 4.3).  The
implementation the binary uses — `InMemoryVectorStore` and its `top_n` in
the external `rig` crate — is not part of this repository's sources, so the
operation is modelled from the spec's words: score every stored embedding
against the query vector, order by descending similarity with ties broken
by earlier chunk index, and return up to `k` (chunk, score) pairs; an empty
store yields an empty result.  The similarity function is a parameter (the
spec fixes cosine similarity; its numeric details play no role in the
claims settled here). -/
def vquery (sim : List ℚ → List ℚ → ℚ) (store : List StoredDoc)
    (qv : List ℚ) (k : Nat) : List (StoredDoc × ℚ) :=
  (sortRanked (store.map (fun e => (e, sim qv e.vec)))).take k

/-- Modelled from the spec: the token-budget truncation of the
ContextBuilder (spec section 4.4): keep whole chunk texts in rank order
while the word budget allows, never splitting a chunk. -/
def fitBudget (budget : Nat) : List String → List String
  | [] => []
  | c :: cs =>
    let w := (split_whitespace c).length
    if w ≤ budget then c :: fitBudget (budget - w) cs else []

/-- Modelled from the spec: `ContextBuilder.buildContext` (spec section
4.4), with the query embedding already applied: query the index for the top
`k` chunks and concatenate their texts in rank order within the word
budget; an empty index yields the empty context string. -/
def buildContext (sim : List ℚ → List ℚ → ℚ) (store : List StoredDoc)
    (qv : List ℚ) (k budget : Nat) : String :=
  joinWords (fitBudget budget ((vquery sim store qv k).map (fun p => p.1.text)))

/-- The built-in document of `main` (main.rs line 88), used when no `--pdf`
argument is given. -/
def defaultDocument : String := "The answer to life is 42 by the way"

/-- Document selection in `main` (main.rs lines 83-89): with a `--pdf` path
the PDF text is extracted (which can fail), otherwise the built-in default
document is used.  `load` stands for `load_pdf_content`. -/
def selectDocument (pdf : Option String) (load : String → Except String String) :
    Except String String :=
  match pdf with
  | some path => load path
  | none => Except.ok defaultDocument

theorem splitWSAux_wordOK (cs : List Char) :
    ∀ acc, (∀ c ∈ acc, c.isWhitespace = false) →
      ∀ w ∈ splitWSAux cs acc, wordOK w := by
  induction cs with
  | nil =>
    intro acc hacc w hw
    simp only [splitWSAux] at hw
    split at hw
    · simp at hw
    · rename_i hne
      simp only [List.mem_singleton] at hw
      subst hw
      refine ⟨by simpa using hne, ?_⟩
      intro c hc
      exact hacc c (by simpa using hc)
  | cons c cs ih =>
    intro acc hacc w hw
    simp only [splitWSAux] at hw
    split at hw
    · split at hw
      · exact ih [] (by simp) w hw
      · rename_i hne
        rcases List.mem_cons.mp hw with h | h
        · subst h
          refine ⟨by simpa using hne, ?_⟩
          intro d hd
          exact hacc d (by simpa using hd)
        · exact ih [] (by simp) w h
    · rename_i hcw
      refine ih (c :: acc) ?_ w hw
      intro d hd
      rcases List.mem_cons.mp hd with h | h
      · subst h; simpa using hcw
      · exact hacc d h

theorem split_whitespace_wordOK (s : String) :
    ∀ w ∈ split_whitespace s, wordOK w :=
  splitWSAux_wordOK s.data [] (by simp)

theorem splitWSAux_nil_acc (acc : List Char) (h : acc ≠ []) :
    splitWSAux [] acc = [String.mk acc.reverse] := by
  simp only [splitWSAux]
  rw [if_neg h]

theorem splitWSAux_space (r : List Char) (acc : List Char) (h : acc ≠ []) :
    splitWSAux (' ' :: r) acc = String.mk acc.reverse :: splitWSAux r [] := by
  simp only [splitWSAux]
  rw [if_pos (by decide), if_neg h]

theorem splitWSAux_nonws_append (t : List Char) :
    ∀ rest acc, (∀ c ∈ t, c.isWhitespace = false) →
      splitWSAux (t ++ rest) acc = splitWSAux rest (t.reverse ++ acc) := by
  induction t with
  | nil => intro rest acc _; simp
  | cons c t ih =>
    intro rest acc h
    have hc : c.isWhitespace = false := h c (List.mem_cons_self c t)
    simp only [List.cons_append, splitWSAux, hc, Bool.false_eq_true, if_false]
    show splitWSAux (t ++ rest) (c :: acc) = splitWSAux rest ((c :: t).reverse ++ acc)
    rw [ih rest (c :: acc) (fun d hd => h d (List.mem_cons_of_mem c hd))]
    simp

/-- Splitting a single-space join of whitespace-free nonempty words recovers
exactly those words. -/
theorem split_join (ws : List String) (h : ∀ w ∈ ws, wordOK w) :
    split_whitespace (joinWords ws) = ws := by
  induction ws with
  | nil => rfl
  | cons w ws ih =>
    cases ws with
    | nil =>
      obtain ⟨hne, hok⟩ := h w (by simp)
      show splitWSAux (joinWords [w]).data [] = [w]
      simp only [joinWords]
      rw [show w.data = w.data ++ [] from (List.append_nil _).symm,
        splitWSAux_nonws_append w.data [] [] hok, List.append_nil,
        splitWSAux_nil_acc _ (by simpa using hne), List.reverse_reverse]
    | cons w' ws' =>
      obtain ⟨hne, hok⟩ := h w (by simp)
      have hdata : (joinWords (w :: w' :: ws')).data
          = w.data ++ (' ' :: (joinWords (w' :: ws')).data) := by
        show (w ++ " " ++ joinWords (w' :: ws')).data = _
        simp [String.data_append]
      have hrest : splitWSAux (joinWords (w' :: ws')).data [] = w' :: ws' :=
        ih (fun u hu => h u (List.mem_cons_of_mem w hu))
      show splitWSAux (joinWords (w :: w' :: ws')).data [] = _
      rw [hdata, splitWSAux_nonws_append w.data _ [] hok, List.append_nil,
        splitWSAux_space _ _ (by simpa using hne), List.reverse_reverse, hrest]

theorem windowLoop_of_len_le (words : List String) (size overlap start fuel : Nat)
    (h : words.length ≤ start) :
    windowLoop words size overlap start (fuel + 1) = some [] := by
  simp [windowLoop, Nat.not_lt.mpr h]

theorem windowLoop_single (words : List String) (size overlap start fuel : Nat)
    (hs : start < words.length) (hend : words.length ≤ start + size) :
    windowLoop words size overlap start (fuel + 1) =
      some [(words.drop start).take size] := by
  simp [windowLoop, hs, hend]

theorem windowLoop_step (words : List String) (size overlap start fuel : Nat)
    (hs : start < words.length) (hend : ¬ words.length ≤ start + size) :
    windowLoop words size overlap start (fuel + 1) =
      Option.map ((words.drop start).take size :: ·)
        (windowLoop words size overlap (start + (size - overlap)) fuel) := by
  simp [windowLoop, hs, hend]

/-- Core invariant of the sliding-window loop: with a positive step and
enough fuel, the loop finishes, its first window starts at `start`, and
dropping the first `overlap` words of every later window and concatenating
recovers `words.drop start`. -/
theorem windowLoop_spec (words : List String) (size overlap : Nat)
    (hso : overlap < size) :
    ∀ fuel start, words.length - start < fuel → start < words.length →
      ∃ ws, windowLoop words size overlap start fuel = some ws ∧
        ws.head? = some ((words.drop start).take size) ∧
        reassemble overlap ws = words.drop start := by
  intro fuel
  induction fuel with
  | zero => intro start h hs; omega
  | succ fuel ih =>
    intro start h hs
    by_cases hend : words.length ≤ start + size
    · refine ⟨[(words.drop start).take size],
        windowLoop_single words size overlap start fuel hs hend, rfl, ?_⟩
      simp only [reassemble]
      rw [List.take_of_length_le (by simp; omega)]
      simp
    · have hstart' : start + (size - overlap) < words.length := by omega
      have hfuel : words.length - (start + (size - overlap)) < fuel := by omega
      obtain ⟨ws', hws', hhead', hre'⟩ := ih (start + (size - overlap)) hfuel hstart'
      refine ⟨(words.drop start).take size :: ws', ?_, rfl, ?_⟩
      · rw [windowLoop_step words size overlap start fuel hs hend, hws']
        rfl
      · cases ws' with
        | nil => simp at hhead'
        | cons w1 wt =>
          have hw1 : w1 = (words.drop (start + (size - overlap))).take size := by
            simpa using hhead'
          have hw1len : overlap ≤ w1.length := by
            rw [hw1]
            simp only [List.length_take, List.length_drop]
            omega
          have hflat : w1 ++ (wt.map (List.drop overlap)).flatten
              = words.drop (start + (size - overlap)) := by
            simpa [reassemble] using hre'
          calc reassemble overlap ((words.drop start).take size :: w1 :: wt)
              = (words.drop start).take size ++
                  (List.drop overlap w1 ++ (wt.map (List.drop overlap)).flatten) := by
                simp [reassemble]
            _ = (words.drop start).take size ++
                  List.drop overlap (w1 ++ (wt.map (List.drop overlap)).flatten) := by
                rw [List.drop_append_of_le_length hw1len]
            _ = (words.drop start).take size ++
                  List.drop overlap (words.drop (start + (size - overlap))) := by
                rw [hflat]
            _ = (words.drop start).take size ++ words.drop (start + size) := by
                rw [List.drop_drop]
                have h2 : start + (size - overlap) + overlap = start + size := by
                  omega
                rw [h2]
            _ = words.drop start := by
                rw [← List.drop_drop, List.take_append_drop]

/-- With a positive step the loop always finishes within `words.length + 1`
iterations. -/
theorem windowLoop_total (words : List String) (size overlap : Nat)
    (hso : overlap < size) (fuel start : Nat) (h : words.length - start < fuel) :
    ∃ ws, windowLoop words size overlap start fuel = some ws := by
  rcases Nat.lt_or_ge start words.length with hs | hs
  · obtain ⟨ws, hws, -, -⟩ := windowLoop_spec words size overlap hso fuel start h hs
    exact ⟨ws, hws⟩
  · cases fuel with
    | zero => omega
    | succ fuel => exact ⟨[], windowLoop_of_len_le words size overlap start fuel hs⟩

/-- Number of windows produced from `start`, in the regime where more words
than `overlap` remain: the ceiling of (remaining − overlap)/(size − overlap),
written with natural division. -/
theorem windowLoop_count (words : List String) (size overlap : Nat)
    (hso : overlap < size) :
    ∀ fuel start ws, words.length - start < fuel → start < words.length →
      overlap < words.length - start →
      windowLoop words size overlap start fuel = some ws →
      ws.length = (words.length - start - overlap + (size - overlap) - 1) /
        (size - overlap) := by
  intro fuel
  induction fuel with
  | zero => intro start ws h _ _ _; omega
  | succ fuel ih =>
    intro start ws h hs hov hw
    by_cases hend : words.length ≤ start + size
    · rw [windowLoop_single words size overlap start fuel hs hend] at hw
      obtain rfl : [(words.drop start).take size] = ws := Option.some.inj hw
      have h1 : words.length - start - overlap + (size - overlap) - 1
          = (words.length - start - overlap - 1) + (size - overlap) := by omega
      rw [List.length_singleton, h1, Nat.add_div_right _ (by omega),
        Nat.div_eq_of_lt (by omega)]
    · rw [windowLoop_step words size overlap start fuel hs hend] at hw
      rcases Option.map_eq_some'.mp hw with ⟨ws', hws', hcons⟩
      have hstart' : start + (size - overlap) < words.length := by omega
      have hfuel : words.length - (start + (size - overlap)) < fuel := by omega
      have hov' : overlap < words.length - (start + (size - overlap)) := by omega
      have hlen' := ih (start + (size - overlap)) ws' hfuel hstart' hov' hws'
      have h2 : words.length - start - overlap + (size - overlap) - 1
          = (words.length - (start + (size - overlap)) - overlap +
              (size - overlap) - 1) + (size - overlap) := by omega
      rw [← hcons, List.length_cons, hlen', h2,
        Nat.add_div_right _ (by omega), Nat.add_comm]

/-- Window size bounds: every window has between 1 and `size` words, and
every window except possibly the last has exactly `size` words. -/
theorem windowLoop_sizes (words : List String) (size overlap : Nat)
    (hso : overlap < size) :
    ∀ fuel start ws, words.length - start < fuel → start < words.length →
      windowLoop words size overlap start fuel = some ws →
      ws ≠ [] ∧ (∀ w ∈ ws, 1 ≤ w.length ∧ w.length ≤ size) ∧
        (∀ w ∈ ws.dropLast, w.length = size) := by
  intro fuel
  induction fuel with
  | zero => intro start ws h _ _; omega
  | succ fuel ih =>
    intro start ws h hs hw
    by_cases hend : words.length ≤ start + size
    · rw [windowLoop_single words size overlap start fuel hs hend] at hw
      obtain rfl : [(words.drop start).take size] = ws := Option.some.inj hw
      refine ⟨by simp, ?_, by simp⟩
      intro w hmem
      obtain rfl : w = (words.drop start).take size := by simpa using hmem
      simp only [List.length_take, List.length_drop]
      omega
    · rw [windowLoop_step words size overlap start fuel hs hend] at hw
      rcases Option.map_eq_some'.mp hw with ⟨ws', hws', hcons⟩
      have hstart' : start + (size - overlap) < words.length := by omega
      have hfuel : words.length - (start + (size - overlap)) < fuel := by omega
      obtain ⟨hne', hall', hinit'⟩ :=
        ih (start + (size - overlap)) ws' hfuel hstart' hws'
      have hwinlen : ((words.drop start).take size).length = size := by
        simp only [List.length_take, List.length_drop]
        omega
      subst hcons
      refine ⟨by simp, ?_, ?_⟩
      · intro w hmem
        rcases List.mem_cons.mp hmem with rfl | hmem'
        · rw [hwinlen]; omega
        · exact hall' w hmem'
      · cases ws' with
        | nil => exact absurd rfl hne'
        | cons w1 wt =>
          intro w hmem
          rw [List.dropLast_cons₂] at hmem
          rcases List.mem_cons.mp hmem with rfl | hmem'
          · exact hwinlen
          · exact hinit' w hmem'

/-- Adjacent windows overlap in exactly `overlap` words: the last `overlap`
words of each window equal the first `overlap` words of the next. -/
theorem windowLoop_adj (words : List String) (size overlap : Nat)
    (hso : overlap < size) :
    ∀ fuel start ws, words.length - start < fuel → start < words.length →
      windowLoop words size overlap start fuel = some ws →
      List.Chain' (fun a b => a.drop (a.length - overlap) = b.take overlap) ws := by
  intro fuel
  induction fuel with
  | zero => intro start ws h _ _; omega
  | succ fuel ih =>
    intro start ws h hs hw
    by_cases hend : words.length ≤ start + size
    · rw [windowLoop_single words size overlap start fuel hs hend] at hw
      obtain rfl : [(words.drop start).take size] = ws := Option.some.inj hw
      exact List.chain'_singleton _
    · rw [windowLoop_step words size overlap start fuel hs hend] at hw
      rcases Option.map_eq_some'.mp hw with ⟨ws', hws', hcons⟩
      have hstart' : start + (size - overlap) < words.length := by omega
      have hfuel : words.length - (start + (size - overlap)) < fuel := by omega
      rcases windowLoop_spec words size overlap hso fuel (start + (size - overlap))
          hfuel hstart' with ⟨wsB, hwsB, hheadB, -⟩
      rw [hwsB] at hws'
      obtain rfl : wsB = ws' := Option.some.inj hws'
      subst hcons
      rw [List.chain'_cons']
      refine ⟨?_, ih (start + (size - overlap)) wsB hfuel hstart' hwsB⟩
      intro b hb
      rw [hheadB] at hb
      obtain rfl : (words.drop (start + (size - overlap))).take size = b :=
        Option.some.inj hb
      have hwinlen : ((words.drop start).take size).length = size := by
        simp only [List.length_take, List.length_drop]
        omega
      rw [hwinlen, List.drop_take, List.take_take, List.drop_drop]
      have e1 : size - (size - overlap) = overlap := by omega
      have e2 : min overlap size = overlap := by omega
      rw [e1, e2]

/-- Every word of every window is a word of the original token list. -/
theorem windowLoop_mem (words : List String) (size overlap : Nat) :
    ∀ fuel start ws, windowLoop words size overlap start fuel = some ws →
      ∀ win ∈ ws, ∀ w ∈ win, w ∈ words := by
  intro fuel
  induction fuel with
  | zero => intro start ws h; simp [windowLoop] at h
  | succ fuel ih =>
    intro start ws hw win hwin w hmem
    by_cases hs : start < words.length
    · by_cases hend : words.length ≤ start + size
      · rw [windowLoop_single words size overlap start fuel hs hend] at hw
        obtain rfl : [(words.drop start).take size] = ws := Option.some.inj hw
        obtain rfl : win = (words.drop start).take size := by simpa using hwin
        exact List.mem_of_mem_drop (List.mem_of_mem_take hmem)
      · rw [windowLoop_step words size overlap start fuel hs hend] at hw
        rcases Option.map_eq_some'.mp hw with ⟨ws', hws', hcons⟩
        subst hcons
        rcases List.mem_cons.mp hwin with rfl | hwin'
        · exact List.mem_of_mem_drop (List.mem_of_mem_take hmem)
        · exact ih (start + (size - overlap)) ws' hws' win hwin' w hmem
    · rw [windowLoop_of_len_le words size overlap start fuel (by omega)] at hw
      obtain rfl : ([] : List (List String)) = ws := Option.some.inj hw
      simp at hwin

/-- The string-building loop of `chunk_text` is the word-list loop followed
by joining each window with single spaces. -/
theorem chunkLoop_eq_windowLoop (words : List String) (size overlap : Nat) :
    ∀ fuel start, chunkLoop words size overlap start fuel =
      Option.map (List.map joinWords) (windowLoop words size overlap start fuel) := by
  intro fuel
  induction fuel with
  | zero => intro start; rfl
  | succ fuel ih =>
    intro start
    simp only [chunkLoop, windowLoop]
    by_cases hs : start < words.length
    · simp only [hs, if_true]
      by_cases hend : words.length ≤ start + size
      · simp [hend]
      · simp only [hend, if_false, ih]
        cases windowLoop words size overlap (start + (size - overlap)) fuel with
        | none => rfl
        | some ws => rfl
    · simp [hs]

theorem chain'_congr_of_mem {α : Type} {R S : α → α → Prop} :
    ∀ l : List α, (∀ a ∈ l, ∀ b ∈ l, (R a b ↔ S a b)) →
      (List.Chain' R l ↔ List.Chain' S l) := by
  intro l
  induction l with
  | nil => intro _; simp
  | cons a t ih =>
    intro h
    cases t with
    | nil => simp
    | cons b t' =>
      rw [List.chain'_cons, List.chain'_cons]
      have hrest := ih fun x hx y hy =>
        h x (List.mem_cons_of_mem a hx) y (List.mem_cons_of_mem a hy)
      have hab := h a (by simp) b (by simp)
      constructor
      · rintro ⟨h1, h2⟩
        exact ⟨hab.mp h1, hrest.mp h2⟩
      · rintro ⟨h1, h2⟩
        exact ⟨hab.mpr h1, hrest.mpr h2⟩

theorem list_getD_of_lt {α : Type} (l : List α) (n : Nat) (d : α)
    (h : n < l.length) : l.getD n d = l.get ⟨n, h⟩ := by
  simp [List.getD_eq_getElem?_getD, List.getElem?_eq_getElem h]

/-- With a valid configuration the chunker always returns a result. -/
theorem chunk_text_total (text : String) (size overlap : Nat)
    (hso : overlap < size) :
    ∃ cs, chunk_text text size overlap = some cs := by
  obtain ⟨ws, hws⟩ := windowLoop_total (split_whitespace text) size overlap hso
    ((split_whitespace text).length + 1) 0 (by omega)
  refine ⟨ws.map joinWords, ?_⟩
  show chunkLoop (split_whitespace text) size overlap 0
    ((split_whitespace text).length + 1) = _
  rw [chunkLoop_eq_windowLoop, hws]
  rfl

/-- Bridge: a successful `chunk_text` run is the space-joining of a window
run, and splitting each produced chunk recovers exactly its window. -/
theorem chunk_text_eq_windows (text : String) (size overlap : Nat)
    (cs : List String) (h : chunk_text text size overlap = some cs) :
    ∃ ws, windowLoop (split_whitespace text) size overlap 0
        ((split_whitespace text).length + 1) = some ws ∧
      cs = ws.map joinWords ∧ cs.map split_whitespace = ws := by
  have h' : chunkLoop (split_whitespace text) size overlap 0
      ((split_whitespace text).length + 1) = some cs := h
  rw [chunkLoop_eq_windowLoop] at h'
  rcases Option.map_eq_some'.mp h' with ⟨ws, hws, hmap⟩
  refine ⟨ws, hws, hmap.symm, ?_⟩
  rw [← hmap, List.map_map]
  have hpt : ∀ win ∈ ws, (split_whitespace ∘ joinWords) win = id win := by
    intro win hwin
    have hgood : ∀ w ∈ win, wordOK w := fun w hw =>
      split_whitespace_wordOK text w
        (windowLoop_mem (split_whitespace text) size overlap
          ((split_whitespace text).length + 1) 0 ws hws win hwin w hw)
    simpa using split_join win hgood
  rw [List.map_congr_left hpt, List.map_id]

/-- Single-space joins of whitespace-free nonempty words contain no
whitespace character other than the space separators. -/
theorem joinWords_chars (ws : List String) (h : ∀ w ∈ ws, wordOK w) :
    ∀ ch ∈ (joinWords ws).data, ch.isWhitespace = true → ch = ' ' := by
  induction ws with
  | nil =>
    intro ch hch _
    exact absurd (show ch ∈ ([] : List Char) from hch) (List.not_mem_nil ch)
  | cons w ws ih =>
    cases ws with
    | nil =>
      intro ch hch hws
      have hok := (h w (by simp)).2 ch (show ch ∈ w.data from hch)
      rw [hok] at hws
      cases hws
    | cons w' ws' =>
      intro ch hch hws
      have hdata : (joinWords (w :: w' :: ws')).data
          = w.data ++ (' ' :: (joinWords (w' :: ws')).data) := by
        show (w ++ " " ++ joinWords (w' :: ws')).data = _
        simp [String.data_append]
      rw [hdata] at hch
      rcases List.mem_append.mp hch with h1 | h2
      · have := (h w (by simp)).2 ch h1
        rw [this] at hws
        cases hws
      · rcases List.mem_cons.mp h2 with rfl | h3
        · rfl
        · exact ih (fun u hu => h u (List.mem_cons_of_mem w hu)) ch h3 hws

/-- Claim C1 (code_bug evidence): `chunk_text` has no ConfigurationError
guard.  On the text "a b c" with `overlap = size` (step zero) the loop
never finishes — for every iteration bound the model reports an unfinished
loop — and likewise with `size = 0`; no error value is ever produced. -/
theorem chunk_text_invalid_config_loops :
    (∀ fuel, chunkLoop ["a", "b", "c"] 1 1 0 fuel = none) ∧
      (∀ fuel, chunkLoop ["a", "b", "c"] 0 0 0 fuel = none) ∧
      chunk_text "a b c" 1 1 = none ∧ chunk_text "a b c" 0 0 = none := by
  have h1 : ∀ fuel, chunkLoop ["a", "b", "c"] 1 1 0 fuel = none := by
    intro fuel
    induction fuel with
    | zero => rfl
    | succ fuel ih => simp [chunkLoop, ih]
  have h2 : ∀ fuel, chunkLoop ["a", "b", "c"] 0 0 0 fuel = none := by
    intro fuel
    induction fuel with
    | zero => rfl
    | succ fuel ih => simp [chunkLoop, ih]
  exact ⟨h1, h2, by decide, by decide⟩

/-- Claim C2: for a valid configuration, dropping the first `overlap` words
of every chunk but the first and concatenating the chunks' word sequences
restores the document's word sequence exactly, in order. -/
theorem chunk_text_coverage (text : String) (size overlap : Nat)
    (hso : overlap < size) (cs : List String)
    (h : chunk_text text size overlap = some cs) :
    reassemble overlap (cs.map split_whitespace) = split_whitespace text := by
  obtain ⟨ws, hws, hcs, hsplit⟩ := chunk_text_eq_windows text size overlap cs h
  rw [hsplit]
  by_cases hlen : (split_whitespace text).length = 0
  · have hwords : split_whitespace text = [] := List.length_eq_zero.mp hlen
    rw [windowLoop_of_len_le _ _ _ _ _ (by omega)] at hws
    obtain rfl : ([] : List (List String)) = ws := Option.some.inj hws
    rw [hwords]
    rfl
  · obtain ⟨ws', hws', -, hre⟩ := windowLoop_spec (split_whitespace text)
      size overlap hso ((split_whitespace text).length + 1) 0 (by omega) (by omega)
    rw [hws'] at hws
    obtain rfl : ws' = ws := Option.some.inj hws
    simpa using hre

/-- Witness for C2 at a concrete input. -/
theorem chunk_text_coverage_witness :
    reassemble 1 ((["a b c", "c d e", "e f g", "g h"] : List String).map
        split_whitespace) = split_whitespace "a b c d e f g h" :=
  chunk_text_coverage "a b c d e f g h" 3 1 (by decide)
    ["a b c", "c d e", "e f g", "g h"] (by decide)

/-- Claim C3 counterexample: for the one-word text "a" with size 2 and
overlap 1 the chunker returns one chunk, but the claimed formula
⌈(W − overlap)/(size − overlap)⌉ gives 0 (here W − overlap = 0, so natural
and integer readings of the subtraction agree). -/
theorem chunk_text_count_claim_false :
    chunk_text "a" 2 1 = some ["a"] ∧
      ¬ ((["a"] : List String).length =
        ((split_whitespace "a").length - 1 + (2 - 1) - 1) / (2 - 1)) := by
  exact ⟨by decide, by decide⟩

/-- Claim C3 (amended): for `size > overlap ≥ 0` and a text with at least
one word, chunking terminates; it produces ⌈(W − overlap)/(size − overlap)⌉
chunks when `W > overlap`, and exactly one chunk when `1 ≤ W ≤ overlap`. -/
theorem chunk_text_count (text : String) (size overlap : Nat)
    (hso : overlap < size) :
    (chunk_text text size overlap).isSome = true ∧
      ∀ cs, chunk_text text size overlap = some cs →
        (overlap < (split_whitespace text).length →
          cs.length = ((split_whitespace text).length - overlap +
            (size - overlap) - 1) / (size - overlap)) ∧
        (split_whitespace text ≠ [] → (split_whitespace text).length ≤ overlap →
          cs.length = 1) := by
  constructor
  · obtain ⟨cs, hcs⟩ := chunk_text_total text size overlap hso
    rw [hcs]
    rfl
  · intro cs h
    obtain ⟨ws, hws, hcs, -⟩ := chunk_text_eq_windows text size overlap cs h
    constructor
    · intro hov
      have hcount := windowLoop_count (split_whitespace text) size overlap hso
        ((split_whitespace text).length + 1) 0 ws (by omega) (by omega)
        (by simpa using hov) hws
      rw [hcs, List.length_map]
      exact hcount
    · intro hne hle
      have hlen0 : 0 < (split_whitespace text).length := by
        cases hsp : split_whitespace text with
        | nil => exact absurd hsp hne
        | cons a l => simp [hsp]
      rw [windowLoop_single _ _ _ _ _ (by omega) (by omega)] at hws
      obtain rfl : [((split_whitespace text).drop 0).take size] = ws :=
        Option.some.inj hws
      rw [hcs]
      rfl

/-- Witness for C3 (amended) at a concrete input. -/
theorem chunk_text_count_witness :
    (chunk_text "a b c" 2 1).isSome = true ∧
      (["a b", "b c"] : List String).length =
        ((split_whitespace "a b c").length - 1 + (2 - 1) - 1) / (2 - 1) :=
  ⟨(chunk_text_count "a b c" 2 1 (by decide)).1,
    ((chunk_text_count "a b c" 2 1 (by decide)).2 ["a b", "b c"]
      (by decide)).1 (by decide)⟩

/-- Claim C4: the spec's worked example.  Chunking "a b c d e f g h" with
size 3 and overlap 1 yields exactly ["a b c", "c d e", "e f g", "g h"]. -/
theorem chunk_text_example :
    chunk_text "a b c d e f g h" 3 1 =
      some ["a b c", "c d e", "e f g", "g h"] := by decide

/-- Claim C5: for a valid configuration every pair of adjacent chunks
shares exactly `overlap` words — the last `overlap` words of chunk `i`
equal the first `overlap` words of chunk `i+1` (here proved for every
adjacent pair, including the last one, which the claim only optionally
exempts). -/
theorem chunk_text_adjacent_overlap (text : String) (size overlap : Nat)
    (hso : overlap < size) (cs : List String)
    (h : chunk_text text size overlap = some cs) :
    ∀ i, i + 1 < cs.length →
      (split_whitespace (cs.getD i "")).drop
          ((split_whitespace (cs.getD i "")).length - overlap) =
        (split_whitespace (cs.getD (i + 1) "")).take overlap := by
  intro i hi
  obtain ⟨ws, hws, hcs, hsplit⟩ := chunk_text_eq_windows text size overlap cs h
  by_cases hlen : (split_whitespace text).length = 0
  · rw [windowLoop_of_len_le _ _ _ _ _ (by omega)] at hws
    obtain rfl : ([] : List (List String)) = ws := Option.some.inj hws
    rw [hcs] at hi
    simp at hi
  · have hadj := windowLoop_adj (split_whitespace text) size overlap hso
      ((split_whitespace text).length + 1) 0 ws (by omega) (by omega) hws
    have hchain : List.Chain' (fun a b =>
        (split_whitespace a).drop ((split_whitespace a).length - overlap) =
          (split_whitespace b).take overlap) cs := by
      rw [hcs, List.chain'_map]
      rw [chain'_congr_of_mem ws ?_]
      · exact hadj
      · intro a ha b hb
        have hsa : split_whitespace (joinWords a) = a := by
          refine split_join a fun w hw => split_whitespace_wordOK text w ?_
          exact windowLoop_mem (split_whitespace text) size overlap
            ((split_whitespace text).length + 1) 0 ws hws a ha w hw
        have hsb : split_whitespace (joinWords b) = b := by
          refine split_join b fun w hw => split_whitespace_wordOK text w ?_
          exact windowLoop_mem (split_whitespace text) size overlap
            ((split_whitespace text).length + 1) 0 ws hws b hb w hw
        rw [hsa, hsb]
    have hstep := List.chain'_iff_get.mp hchain i (by omega)
    rw [list_getD_of_lt cs i "" (by omega), list_getD_of_lt cs (i + 1) "" hi]
    exact hstep

/-- Witness for C5 at a concrete input. -/
theorem chunk_text_adjacent_overlap_witness :
    (split_whitespace ((["a b c", "c d e", "e f g", "g h"] :
          List String).getD 0 "")).drop
        ((split_whitespace ((["a b c", "c d e", "e f g", "g h"] :
          List String).getD 0 "")).length - 1) =
      (split_whitespace ((["a b c", "c d e", "e f g", "g h"] :
        List String).getD 1 "")).take 1 :=
  chunk_text_adjacent_overlap "a b c d e f g h" 3 1 (by decide)
    ["a b c", "c d e", "e f g", "g h"] (by decide) 0 (by decide)

/-- Claim C6: for a valid configuration the chunk list is empty exactly
when the text has no whitespace-separated word; in particular an empty or
all-whitespace text yields an empty chunk sequence. -/
theorem chunk_text_empty_iff (text : String) (size overlap : Nat)
    (hso : overlap < size) (cs : List String)
    (h : chunk_text text size overlap = some cs) :
    (cs = [] ↔ split_whitespace text = []) := by
  obtain ⟨ws, hws, hcs, -⟩ := chunk_text_eq_windows text size overlap cs h
  constructor
  · intro hnil
    by_contra hne
    have hlen0 : 0 < (split_whitespace text).length := by
      cases hsp : split_whitespace text with
      | nil => exact absurd hsp hne
      | cons a l => simp [hsp]
    obtain ⟨ws', hws', hhead, -⟩ := windowLoop_spec (split_whitespace text)
      size overlap hso ((split_whitespace text).length + 1) 0 (by omega) hlen0
    rw [hws'] at hws
    obtain rfl : ws' = ws := Option.some.inj hws
    rw [hnil] at hcs
    obtain rfl : ws' = [] := by simpa using hcs.symm
    simp at hhead
  · intro hnil
    rw [windowLoop_of_len_le _ _ _ _ _ (by simp [hnil])] at hws
    obtain rfl : ([] : List (List String)) = ws := Option.some.inj hws
    simpa using hcs

/-- Witness for C6 at a concrete all-whitespace input. -/
theorem chunk_text_empty_iff_witness :
    (([] : List String) = [] ↔ split_whitespace " \t\n " = []) :=
  chunk_text_empty_iff " \t\n " 3 1 (by decide) [] (by decide)

/-- Claim C7 (modelled from the spec, section 4.3/4.4): querying an empty
vector store returns the empty result list for every similarity function,
query vector and `k`, and the context built from it is the empty string;
no error value exists on this path. -/
theorem empty_index_query_empty (sim : List ℚ → List ℚ → ℚ) (qv : List ℚ)
    (k budget : Nat) :
    vquery sim [] qv k = [] ∧ buildContext sim [] qv k budget = "" := by
  constructor
  · simp [vquery, sortRanked]
  · simp [buildContext, vquery, sortRanked, fitBudget, joinWords]

/-- Claim C8: with no `--pdf` argument `main` does not fail: it selects the
built-in document "The answer to life is 42 by the way", whatever the PDF
loader would do, and chunking it with the default size 500 and overlap 50
succeeds with that document as the single chunk. -/
theorem no_pdf_default_document (load : String → Except String String) :
    selectDocument none load = Except.ok defaultDocument ∧
      defaultDocument = "The answer to life is 42 by the way" ∧
      chunk_text defaultDocument 500 50 = some [defaultDocument] :=
  ⟨rfl, rfl, by decide⟩

/-- Claim C9: for a valid configuration every chunk has at least one and at
most `size` words, and every chunk except possibly the last has exactly
`size` words. -/
theorem chunk_text_chunk_sizes (text : String) (size overlap : Nat)
    (hso : overlap < size) (cs : List String)
    (h : chunk_text text size overlap = some cs) :
    (∀ c ∈ cs, 1 ≤ (split_whitespace c).length ∧
        (split_whitespace c).length ≤ size) ∧
      ∀ c ∈ cs.dropLast, (split_whitespace c).length = size := by
  obtain ⟨ws, hws, hcs, hsplit⟩ := chunk_text_eq_windows text size overlap cs h
  by_cases hlen : (split_whitespace text).length = 0
  · rw [windowLoop_of_len_le _ _ _ _ _ (by omega)] at hws
    obtain rfl : ([] : List (List String)) = ws := Option.some.inj hws
    obtain rfl : cs = [] := by simpa using hcs
    simp
  · obtain ⟨-, hall, hinit⟩ := windowLoop_sizes (split_whitespace text)
      size overlap hso ((split_whitespace text).length + 1) 0 ws
      (by omega) (by omega) hws
    constructor
    · intro c hc
      refine hall _ ?_
      rw [← hsplit]
      exact List.mem_map_of_mem split_whitespace hc
    · intro c hc
      refine hinit _ ?_
      rw [← hsplit, ← List.map_dropLast]
      exact List.mem_map_of_mem split_whitespace hc

/-- Witness for C9 at a concrete input. -/
theorem chunk_text_chunk_sizes_witness :
    1 ≤ (split_whitespace "a b").length ∧ (split_whitespace "a b").length ≤ 2 :=
  (chunk_text_chunk_sizes "a b c" 2 1 (by decide) ["a b", "b c"]
    (by decide)).1 "a b" (by decide)

/-- Claim C10: chunks are whitespace-normalized — every whitespace character
in a chunk is a single-space separator: chunks contain no whitespace other
than ' ', and each chunk is a fixed point of tokenize-then-rejoin (so runs
of whitespace, tabs and newlines of the document are not preserved). -/
theorem chunk_text_whitespace_normalized (text : String) (size overlap : Nat)
    (cs : List String)
    (h : chunk_text text size overlap = some cs) :
    ∀ c ∈ cs, (∀ ch ∈ c.data, ch.isWhitespace = true → ch = ' ') ∧
      joinWords (split_whitespace c) = c := by
  obtain ⟨ws, hws, hcs, hsplit⟩ := chunk_text_eq_windows text size overlap cs h
  intro c hc
  rw [hcs] at hc
  rcases List.mem_map.mp hc with ⟨win, hwin, rfl⟩
  have hgood : ∀ w ∈ win, wordOK w := fun w hw =>
    split_whitespace_wordOK text w
      (windowLoop_mem (split_whitespace text) size overlap
        ((split_whitespace text).length + 1) 0 ws hws win hwin w hw)
  exact ⟨joinWords_chars win hgood, by rw [split_join win hgood]⟩

/-- Witness for C10 at a concrete input containing a tab. -/
theorem chunk_text_whitespace_normalized_witness :
    joinWords (split_whitespace "a b") = "a b" :=
  (chunk_text_whitespace_normalized "a\tb" 2 1 ["a b"]
    (by decide) "a b" (by decide)).2
